import Mathlib

/-!
Shallow embedding of srclib-python's `grapher/graph.py`.

The repository's single source file drives the external jedi analysis
engine over a batch of Python files and assembles a Defs/Refs code graph.
The engine itself is out of scope (spec section 6); a name occurrence
reported by the engine is modelled by the abstract handle `JName` below,
exposing exactly the fields `graph.py` reads: definition flag, builtin
flag, syntactic kind, bare name, engine full name, enclosing scope chain,
owning module path, 1-indexed line, 0-indexed column, and docstring.

File-system paths (`os.path` values) are modelled by `PyPath`: an
absolute flag plus the list of `/`-separated components.  All paths fed
to the program are normalized (the repository obtains them from
`os.path.normpath` / the engine), so `dirname`, `join`, `relpath` and
`abspath` are embedded on components without `.`/`..` normalization.

Python strings are modelled by Lean `String`; Python `len` counts code
points, which is `String.length`.  String helpers used in evaluation are
reimplemented by structural recursion on `String.data` so that concrete
runs reduce inside the kernel.

Exceptions are modelled by `Except String`.  A `try/except` block in the
source corresponds to a `match` on the embedded `Except` value; an
exception raised outside any `try` propagates as `.error`.  Messages
written by the `error` diagnostic helper are accumulated in a log list
(the `--quiet` flag merely filters the display of that stream and is CLI
glue, outside the embedded core).
-/

namespace Srclib

/-- A file-system path: absolute flag plus slash-separated components. -/
structure PyPath where
  isAbs : Bool
  comps : List String
deriving DecidableEq, Repr

/-- `os.path.basename` on a normalized path. -/
def basename (p : PyPath) : String :=
  p.comps.getLastD ""

/-- `os.path.dirname` on a normalized path. -/
def dirname (p : PyPath) : PyPath :=
  ⟨p.isAbs, p.comps.dropLast⟩

/-- Render a `PyPath` to its string form. -/
def renderPyPath (p : PyPath) : String :=
  (if p.isAbs then "/" else "") ++ String.intercalate "/" p.comps

/-- Kernel-friendly intercalation of strings. -/
def strJoin (sep : String) : List String → String
  | [] => ""
  | [x] => x
  | x :: y :: t => x ++ sep ++ strJoin sep (y :: t)

/-- `str.split(c)` for a single-character separator, on raw characters. -/
def splitCharAux (c : Char) : List Char → List Char → List (List Char)
  | [], acc => [acc.reverse]
  | x :: xs, acc =>
    if x = c then acc.reverse :: splitCharAux c xs []
    else splitCharAux c xs (x :: acc)

/-- `str.split(c)` for a single-character separator. -/
def splitStr (c : Char) (s : String) : List String :=
  (splitCharAux c s.data []).map String.mk

/-- `str.startswith(pre)`. -/
def strStartsWith (s pre : String) : Bool :=
  List.isPrefixOf pre.data s.data

/-- `str.endswith(suf)`. -/
def strEndsWith (s suf : String) : Bool :=
  List.isSuffixOf suf.data s.data

/-- `full_name.replace(".", "/")` (single-character replacement). -/
def slashed (s : String) : String :=
  String.mk (s.data.map (fun c => if c = '.' then '/' else c))

/-- Rendered path with `/` replaced by `.`, i.e. `render(p).replace("/", ".")`. -/
def dottedOf (p : PyPath) : String :=
  (if p.isAbs then "." else "") ++ strJoin "." p.comps

/-- `os.path.join(a, b)` for a non-absolute right operand. -/
def joinPath (a b : String) : String :=
  if a = "" then b else a ++ "/" ++ b

/-- Index of the last `.` in a component, if any. -/
def lastDotPos (cs : List Char) : Option Nat :=
  match List.findIdx? (fun c => c == '.') cs.reverse with
  | none => none
  | some k => some (cs.length - 1 - k)

/-- `os.path.splitext(c)[0]` for a single path component: strip the
extension after the last dot, unless every character before that dot is
itself a dot (Python keeps names like `.py` whole). -/
def stemOfComp (s : String) : String :=
  match lastDotPos s.data with
  | none => s
  | some i =>
    if (s.data.take i).any (fun c => c != '.') then String.mk (s.data.take i) else s

/-- `os.path.relpath` component arithmetic: strip the common prefix and
climb out of what remains of the base directory. -/
def relpathComps : List String → List String → List String
  | x :: xs, y :: ys =>
    if x = y then relpathComps xs ys
    else List.replicate (y :: ys).length ".." ++ (x :: xs)
  | xs, ys => List.replicate ys.length ".." ++ xs

/-- `os.path.relpath(p)` from the working directory `cwd` (an absolute
path given by its components).  A relative argument is already relative
to `cwd` and (being normalized) is returned unchanged. -/
def relPath (cwd : List String) (p : PyPath) : PyPath :=
  if p.isAbs then
    let r := relpathComps p.comps cwd
    ⟨false, if r = [] then ["."] else r⟩
  else p

/-- `os.path.abspath(p)` with working directory `cwd`. -/
def absPath (cwd : List String) (p : PyPath) : PyPath :=
  if p.isAbs then p else ⟨true, cwd ++ p.comps⟩

/-- `supermodule_path` from `graph.py`: the directory of the module file,
one level higher for a package `__init__.py`. -/
def supermodule_path (p : PyPath) : PyPath :=
  if basename p = "__init__.py" then dirname (dirname p) else dirname p

/-- `path.join(*components)`: Python raises a `TypeError` when the
component list is empty. -/
def pyJoinList : List String → Except String PyPath
  | [] => .error "TypeError: join() missing 1 required positional argument"
  | xs => .ok ⟨false, xs⟩

/-- `abs_module_path_to_relative_module_path` from `graph.py`: use the
relative path when it does not escape the working directory, else take
everything after a `site-packages`/`dist-packages` component, else after
a component starting with `python`, else raise. -/
def abs_module_path_to_relative_module_path (cwd : List String) (mp : PyPath) :
    Except String PyPath :=
  let relpath := relPath cwd mp
  if ¬ strStartsWith (relpath.comps.headD "") ".." then
    .ok relpath
  else
    match mp.comps.findIdx? (fun c => c == "site-packages" || c == "dist-packages") with
    | some i => pyJoinList (mp.comps.drop (i + 1))
    | none =>
      match mp.comps.findIdx? (fun c => strStartsWith c "python") with
      | some i => pyJoinList (mp.comps.drop (i + 1))
      | none =>
        .error ("could not convert absolute module path " ++ renderPyPath mp
          ++ " to relative module path")

/-- `filename_to_module_name` from `graph.py`. -/
def filename_to_module_name (f : PyPath) : String :=
  if basename f = "__init__.py" then dottedOf (dirname f)
  else dottedOf ⟨f.isAbs, f.comps.dropLast ++ [stemOfComp (basename f)]⟩

/-- An enclosing scope as exposed by the engine: kind tag and full name. -/
structure Scope where
  type : String
  full_name : String
deriving DecidableEq, Repr

/-- A raw name occurrence reported by the analysis engine (the subset of
the jedi `Definition` interface that `graph.py` reads).  `parents` is the
enclosing scope chain, innermost first; `parent()` is its head and each
step of `.parent()` moves one element down the list, with `None` (and
hence an `AttributeError` on attribute access) past the end. -/
structure JName where
  is_definition : Bool
  in_builtin_module : Bool
  type : String
  name : String
  full_name : String
  parents : List Scope
  module_path : PyPath
  line : Nat
  column : Nat
  docstring : String
deriving DecidableEq, Repr

/-- The `while parent.type != "class": parent = parent.parent()` walk:
first class-kind scope of the chain, `AttributeError` past the end. -/
def findClassScope : List Scope → Option Scope
  | [] => none
  | s :: rest => if s.type = "class" then some s else findClassScope rest

/-- `full_name_of_def` from `graph.py`. -/
def full_name_of_def (cwd : List String) (d : JName) (from_ref : Bool) :
    Except String String :=
  if d.in_builtin_module then .ok d.name
  else
    let localRes : Except String String :=
      if d.type = "statement" then
        match d.parents with
        | [] => .error "AttributeError: NoneType object has no attribute type"
        | p :: rest =>
          if p.type = "function" ∧ d.name = "self" then
            match findClassScope (p :: rest) with
            | some c => .ok (c.full_name ++ "." ++ d.name)
            | none => .error "AttributeError: NoneType object has no attribute type"
          else .ok (d.full_name ++ "." ++ d.name)
      else if d.type = "param" then .ok (d.full_name ++ "." ++ d.name)
      else .ok d.full_name
    match localRes with
    | .error e => .error e
    | .ok full_name =>
      let mpRes : Except String PyPath :=
        if from_ref then abs_module_path_to_relative_module_path cwd d.module_path
        else .ok d.module_path
      match mpRes with
      | .error e => .error e
      | .ok module_path =>
        .ok (joinPath (dottedOf (supermodule_path module_path)) full_name)

/-- A Definition record (`Def` namedtuple in `graph.py`). -/
structure Def where
  Path : String
  Kind : String
  Name : String
  File : PyPath
  DefStart : Nat
  DefEnd : Nat
  Exported : Bool
  Docstring : String
  Data : Option Unit
deriving DecidableEq, Repr

/-- A Reference record (`Ref` namedtuple in `graph.py`). -/
structure Ref where
  DefPath : String
  DefFile : PyPath
  Def : Bool
  File : PyPath
  Start : Nat
  End : Nat
  ToBuiltin : Bool
deriving DecidableEq, Repr

/-- `LineColToOffConverter.__init__`: `cumulative_off = [0]`, then one
entry `previous + len(line) + 1` per line of `source.split("\n")`. -/
def cumOffAux (acc : Nat) : List String → List Nat
  | [] => [acc]
  | l :: t => acc :: cumOffAux (acc + l.length + 1) t

/-- The converter table built from a source text. -/
def lineColToOff (source : String) : List Nat :=
  cumOffAux 0 (splitStr '\n' source)

/-- `LineColToOffConverter.convert` for a 1-indexed `line` and 0-indexed
`column`: `none` models the `(None, message)` error return taken when
`line - 1` falls outside the table. -/
def convert (tbl : List Nat) (line column : Nat) : Option Nat :=
  let l0 := line - 1
  if h : l0 < tbl.length then some (tbl.get ⟨l0, h⟩ + column) else none

/-- `jedi_def_to_def` from `graph.py`.  A failed conversion leaves
`start` as the `(None, message)` pair, and `start + len(def_.name)`
then raises an uncaught `TypeError`. -/
def jedi_def_to_def (cwd : List String) (d : JName) (tbl : List Nat) :
    Except String Def :=
  match full_name_of_def cwd d false with
  | .error e => .error e
  | .ok full_name =>
    match convert tbl d.line d.column with
    | none => .error "TypeError: can only concatenate tuple (not int) to tuple"
    | some start =>
      .ok {
        Path := slashed full_name
        Kind := d.type
        Name := d.name
        File := relPath cwd d.module_path
        DefStart := start
        DefEnd := start + d.name.length
        Exported := true
        Docstring := d.docstring
        Data := none
      }

/-- Body of the reference branch of `get_defs_refs`: everything inside
the `try` block.  `.error` is the exception caught by the `except`. -/
def refOf (cwd : List String) (fp : PyPath) (tbl : List Nat) (n : JName) :
    Except String Ref :=
  match full_name_of_def cwd n true with
  | .error e => .error e
  | .ok full_name =>
    if full_name = "" then .error "full_name is empty"
    else
      match convert tbl n.line n.column with
      | none => .error "TypeError: can only concatenate tuple (not int) to tuple"
      | some start =>
        .ok {
          DefPath := slashed full_name
          DefFile := relPath cwd n.module_path
          Def := false
          File := fp
          Start := start
          End := start + n.name.length
          ToBuiltin := n.in_builtin_module
        }

/-- The diagnostic written by the `except` clause of `get_defs_refs`. -/
def refErrMsg (n : JName) (fp : PyPath) (e : String) : String :=
  "failed to convert ref (" ++ n.name ++ ") in source file "
    ++ renderPyPath fp ++ ": " ++ e

/-- The name loop of `get_defs_refs`, threading the accumulated
definitions, references and diagnostics.  A definition that fails to
convert raises outside any `try` and aborts the file; a reference that
fails is logged and skipped. -/
def runNames (cwd : List String) (fp : PyPath) (tbl : List Nat) :
    List JName → List Def × List Ref × List String →
    Except String (List Def × List Ref × List String)
  | [], acc => .ok acc
  | n :: rest, acc =>
    if n.is_definition then
      match jedi_def_to_def cwd n tbl with
      | .error e => .error e
      | .ok d => runNames cwd fp tbl rest (acc.1 ++ [d], acc.2.1, acc.2.2)
    else
      match refOf cwd fp tbl n with
      | .ok r => runNames cwd fp tbl rest (acc.1, acc.2.1 ++ [r], acc.2.2)
      | .error e => runNames cwd fp tbl rest (acc.1, acc.2.1, acc.2.2 ++ [refErrMsg n fp e])

/-- One input file for the pipeline: its path, raw source text, and the
name occurrences the engine reports for it. -/
structure FileInput where
  file : PyPath
  source : String
  names : List JName
deriving DecidableEq, Repr

/-- `get_defs_refs` from `graph.py`: build the converter once per file
and process every occurrence. -/
def get_defs_refs (cwd : List String) (fi : FileInput) :
    Except String (List Def × List Ref × List String) :=
  runNames cwd fi.file (lineColToOff fi.source) fi.names ([], [], [])

/-- The per-file extraction loop of `graph`, concatenating definitions,
references and diagnostics in input-file order. -/
def extractFiles (cwd : List String) :
    List FileInput → List Def × List Ref × List String →
    Except String (List Def × List Ref × List String)
  | [], acc => .ok acc
  | fi :: rest, acc =>
    match get_defs_refs cwd fi with
    | .error e => .error e
    | .ok (d, r, l) =>
      extractFiles cwd rest (acc.1 ++ d, acc.2.1 ++ r, acc.2.2 ++ l)

/-- All extracted definitions, references and diagnostics of one run. -/
def extractAll (cwd : List String) (files : List FileInput) :
    Except String (List Def × List Ref × List String) :=
  extractFiles cwd files ([], [], [])

/-- The module-level Definition synthesized for one input file. -/
def mkModuleDefOf (fi : FileInput) : Def :=
  let module := filename_to_module_name fi.file
  { Path := slashed module
    Kind := "module"
    Name := (splitStr '.' module).getLastD ""
    File := fi.file
    DefStart := 0
    DefEnd := 0
    Exported := true
    Docstring := ""
    Data := none }

/-- The `defs.insert(0, Def(...))` loop of `graph`: each module
definition is prepended to the evolving list, one file at a time. -/
def insertModuleDefs (files : List FileInput) (ds : List Def) : List Def :=
  files.foldl (fun acc fi => mkModuleDefOf fi :: acc) ds

/-- First-occurrence-wins deduplication of definitions by `Path`
(`unique_defs` loop of `graph`). -/
def dedupDefsAux (seen : List String) : List Def → List Def
  | [] => []
  | d :: rest =>
    if d.Path ∈ seen then dedupDefsAux seen rest
    else d :: dedupDefsAux (d.Path :: seen) rest

/-- `unique_defs` of `graph`. -/
def dedupDefs (l : List Def) : List Def :=
  dedupDefsAux [] l

/-- The self-Reference synthesized for a kept Definition. -/
def selfRefOf (cwd : List String) (d : Def) : Ref :=
  { DefPath := d.Path
    DefFile := absPath cwd d.File
    Def := true
    File := d.File
    Start := d.DefStart
    End := d.DefEnd
    ToBuiltin := false }

/-- The reference deduplication key of `graph`. -/
def refKey (r : Ref) : String × PyPath × PyPath × Nat × Nat :=
  (r.DefPath, r.DefFile, r.File, r.Start, r.End)

/-- First-occurrence-wins deduplication of references by `refKey`
(`unique_refs` loops of `graph`, one shared key set). -/
def dedupRefsAux (seen : List (String × PyPath × PyPath × Nat × Nat)) :
    List Ref → List Ref
  | [] => []
  | r :: rest =>
    if refKey r ∈ seen then dedupRefsAux seen rest
    else r :: dedupRefsAux (refKey r :: seen) rest

/-- The pre-deduplication definition list of one run: extracted
definitions with the synthesized module definitions prepended. -/
def combinedDefs (cwd : List String) (files : List FileInput) :
    Except String (List Def) :=
  match extractAll cwd files with
  | .error e => .error e
  | .ok (eds, _, _) => .ok (insertModuleDefs files eds)

/-- `graph` from `graph.py` (one Extractor+Assembler run over an
explicit file list): extract per file, prepend module definitions,
deduplicate definitions by path, synthesize self-references, and
deduplicate references by key.  The third component is the diagnostic
stream. -/
def graph (cwd : List String) (files : List FileInput) :
    Except String (List Def × List Ref × List String) :=
  match extractAll cwd files with
  | .error e => .error e
  | .ok (eds, ers, logs) =>
    let uniqueDefs := dedupDefs (insertModuleDefs files eds)
    let selfRefs := uniqueDefs.map (selfRefOf cwd)
    let uniqueRefs := dedupRefsAux [] (selfRefs ++ ers)
    .ok (uniqueDefs, uniqueRefs, logs)

/-- JSON string literal (inputs are assumed escape-free). -/
def jsonStr (s : String) : String :=
  "\"" ++ s ++ "\""

/-- JSON boolean literal. -/
def jsonBool (b : Bool) : String :=
  if b then "true" else "false"

/-- One serialized Definition, keys in sorted order as `order_dict`
produces them. -/
def serializeDef (d : Def) : String :=
  "\x7b\"Data\": null, \"DefEnd\": " ++ toString d.DefEnd
    ++ ", \"DefStart\": " ++ toString d.DefStart
    ++ ", \"Docstring\": " ++ jsonStr d.Docstring
    ++ ", \"Exported\": " ++ jsonBool d.Exported
    ++ ", \"File\": " ++ jsonStr (renderPyPath d.File)
    ++ ", \"Kind\": " ++ jsonStr d.Kind
    ++ ", \"Name\": " ++ jsonStr d.Name
    ++ ", \"Path\": " ++ jsonStr d.Path
    ++ "\x7d"

/-- One serialized Reference, keys in sorted order. -/
def serializeRef (r : Ref) : String :=
  "\x7b\"Def\": " ++ jsonBool r.Def
    ++ ", \"DefFile\": " ++ jsonStr (renderPyPath r.DefFile)
    ++ ", \"DefPath\": " ++ jsonStr r.DefPath
    ++ ", \"End\": " ++ toString r.End
    ++ ", \"File\": " ++ jsonStr (renderPyPath r.File)
    ++ ", \"Start\": " ++ toString r.Start
    ++ ", \"ToBuiltin\": " ++ jsonBool r.ToBuiltin
    ++ "\x7d"

/-- The serialized document printed by `graph` (`json.dumps` of the
`order_dict`-sorted `Defs`/`Refs` document). -/
def serializeGraph (cwd : List String) (files : List FileInput) :
    Except String String :=
  match graph cwd files with
  | .error e => .error e
  | .ok (ds, rs, _) =>
    .ok ("\x7b\"Defs\": [" ++ strJoin ", " (ds.map serializeDef)
      ++ "], \"Refs\": [" ++ strJoin ", " (rs.map serializeRef) ++ "]\x7d")

/-! ### Basic helper lemmas -/

lemma str_length_pos_of_ne_empty (s : String) (h : s ≠ "") : 0 < s.length := by
  cases s with
  | mk data =>
    cases data with
    | nil => exact absurd rfl h
    | cons c cs => simp [String.length]

lemma relPath_isAbs (cwd : List String) (p : PyPath) : (relPath cwd p).isAbs = false := by
  unfold relPath
  split <;> simp_all

lemma absPath_isAbs (cwd : List String) (p : PyPath) : (absPath cwd p).isAbs = true := by
  unfold absPath
  split <;> simp_all

lemma cumOffAux_length (acc : Nat) (ls : List String) :
    (cumOffAux acc ls).length = ls.length + 1 := by
  induction ls generalizing acc with
  | nil => rfl
  | cons l t ih => simp [cumOffAux, ih]

lemma cumOffAux_getD (ls : List String) : ∀ (acc i : Nat), i ≤ ls.length →
    (cumOffAux acc ls).getD i 0 =
      acc + ((ls.take i).map (fun l => l.length + 1)).sum := by
  induction ls with
  | nil =>
    intro acc i h
    have : i = 0 := Nat.le_zero.1 h
    subst this
    simp [cumOffAux]
  | cons l t ih =>
    intro acc i h
    cases i with
    | zero => simp [cumOffAux]
    | succ j =>
      have hj : j ≤ t.length := by simpa using h
      simp only [cumOffAux, List.getD_cons_succ, List.take_succ_cons, List.map_cons,
        List.sum_cons]
      rw [ih (acc + l.length + 1) j hj]
      omega

lemma convert_in_range (tbl : List Nat) (line col : Nat) (h : line - 1 < tbl.length) :
    convert tbl line col = some (tbl.getD (line - 1) 0 + col) := by
  simp only [convert, h, dif_pos]
  rw [List.getD_eq_getElem tbl 0 h]
  rfl

/-! ### Field lemmas for extracted records -/

lemma jedi_def_to_def_fields (cwd : List String) (n : JName) (tbl : List Nat) (d : Def)
    (h : jedi_def_to_def cwd n tbl = .ok d) :
    d.Name = n.name ∧ d.DefEnd = d.DefStart + n.name.length ∧ d.Kind = n.type := by
  unfold jedi_def_to_def at h
  cases hf : full_name_of_def cwd n false <;> rw [hf] at h
  · exact absurd h (by simp)
  · cases hc : convert tbl n.line n.column <;> rw [hc] at h
    · exact absurd h (by simp)
    · simp only [Except.ok.injEq] at h
      subst h
      simp

lemma refOf_fields (cwd : List String) (fp : PyPath) (tbl : List Nat) (n : JName) (r : Ref)
    (h : refOf cwd fp tbl n = .ok r) :
    r.Def = false ∧ r.DefFile = relPath cwd n.module_path ∧ r.File = fp ∧
      r.End = r.Start + n.name.length := by
  unfold refOf at h
  cases hf : full_name_of_def cwd n true <;> rw [hf] at h
  · exact absurd h (by simp)
  · rename_i fn
    dsimp only at h
    by_cases hfn : fn = ""
    · rw [if_pos hfn] at h
      exact absurd h (by simp)
    · rw [if_neg hfn] at h
      cases hc : convert tbl n.line n.column <;> rw [hc] at h
      · exact absurd h (by simp)
      · simp only [Except.ok.injEq] at h
        subst h
        simp

/-! ### Deduplication lemmas -/

lemma dedupDefsAux_subset (l : List Def) : ∀ (seen : List String),
    ∀ d ∈ dedupDefsAux seen l, d ∈ l := by
  induction l with
  | nil => intro seen d hd; simp [dedupDefsAux] at hd
  | cons a t ih =>
    intro seen d hd
    simp only [dedupDefsAux] at hd
    split at hd
    · exact List.mem_cons_of_mem a (ih seen d hd)
    · rcases List.mem_cons.1 hd with h | h
      · exact h ▸ List.mem_cons_self a t
      · exact List.mem_cons_of_mem a (ih _ d h)

lemma dedupDefsAux_path_notin (l : List Def) : ∀ (seen : List String),
    ∀ d ∈ dedupDefsAux seen l, d.Path ∉ seen := by
  induction l with
  | nil => intro seen d hd; simp [dedupDefsAux] at hd
  | cons a t ih =>
    intro seen d hd
    simp only [dedupDefsAux] at hd
    split at hd
    · exact ih seen d hd
    · rcases List.mem_cons.1 hd with h | h
      · subst h; assumption
      · intro hmem
        exact ih _ d h (List.mem_cons_of_mem _ hmem)

lemma dedupDefsAux_nodup (l : List Def) : ∀ (seen : List String),
    ((dedupDefsAux seen l).map (fun d => d.Path)).Nodup := by
  induction l with
  | nil => intro seen; simp [dedupDefsAux]
  | cons a t ih =>
    intro seen
    simp only [dedupDefsAux]
    split
    · exact ih seen
    · simp only [List.map_cons, List.nodup_cons]
      refine ⟨?_, ih _⟩
      intro hmem
      obtain ⟨d, hd, hpath⟩ := List.mem_map.1 hmem
      exact dedupDefsAux_path_notin t _ d hd (hpath ▸ List.mem_cons_self _ _)

lemma dedupDefsAux_find (l : List Def) : ∀ (seen : List String) (p : String), p ∉ seen →
    (dedupDefsAux seen l).find? (fun d => d.Path == p) = l.find? (fun d => d.Path == p) := by
  induction l with
  | nil => intro seen p _; rfl
  | cons a t ih =>
    intro seen p hp
    simp only [dedupDefsAux]
    by_cases hmem : a.Path ∈ seen
    · rw [if_pos hmem]
      have hne : (a.Path == p) = false := by
        simp only [beq_eq_false_iff_ne, ne_eq]
        intro he
        exact hp (he ▸ hmem)
      rw [List.find?_cons, hne]
      exact ih seen p hp
    · rw [if_neg hmem]
      by_cases heq : a.Path = p
      · rw [List.find?_cons, List.find?_cons]
        simp [heq]
      · have hne : (a.Path == p) = false := by simpa using heq
        rw [List.find?_cons, List.find?_cons, hne]
        refine ih _ p ?_
        simp only [List.mem_cons]
        rintro (h | h)
        · exact heq h.symm
        · exact hp h

lemma find?_self_of_nodup_paths (l : List Def)
    (h : (l.map (fun d => d.Path)).Nodup) (d : Def) (hd : d ∈ l) :
    l.find? (fun x => x.Path == d.Path) = some d := by
  induction l with
  | nil => simp at hd
  | cons a t ih =>
    simp only [List.map_cons, List.nodup_cons] at h
    rcases List.mem_cons.1 hd with heq | hmem
    · subst heq
      rw [List.find?_cons]
      simp
    · have hne : (a.Path == d.Path) = false := by
        simp only [beq_eq_false_iff_ne, ne_eq]
        intro he
        exact h.1 (he ▸ List.mem_map_of_mem (fun x => x.Path) hmem)
      rw [List.find?_cons, hne]
      exact ih h.2 hmem

lemma dedupRefsAux_subset (l : List Ref) :
    ∀ (seen : List (String × PyPath × PyPath × Nat × Nat)),
    ∀ r ∈ dedupRefsAux seen l, r ∈ l := by
  induction l with
  | nil => intro seen r hr; simp [dedupRefsAux] at hr
  | cons a t ih =>
    intro seen r hr
    simp only [dedupRefsAux] at hr
    split at hr
    · exact List.mem_cons_of_mem a (ih seen r hr)
    · rcases List.mem_cons.1 hr with h | h
      · exact h ▸ List.mem_cons_self a t
      · exact List.mem_cons_of_mem a (ih _ r h)

lemma dedupRefsAux_append_nodup (l₁ : List Ref) :
    ∀ (seen : List (String × PyPath × PyPath × Nat × Nat)) (l₂ : List Ref),
    (l₁.map refKey).Nodup → (∀ r ∈ l₁, refKey r ∉ seen) →
    dedupRefsAux seen (l₁ ++ l₂) = l₁ ++ dedupRefsAux (l₁.reverse.map refKey ++ seen) l₂ := by
  induction l₁ with
  | nil => intro seen l₂ _ _; simp
  | cons a t ih =>
    intro seen l₂ hnd hsn
    simp only [List.map_cons, List.nodup_cons] at hnd
    have ha : refKey a ∉ seen := hsn a (List.mem_cons_self a t)
    have hsub : ∀ r ∈ t, refKey r ∉ refKey a :: seen := by
      intro r hr
      simp only [List.mem_cons]
      rintro (h | h)
      · exact hnd.1 (h ▸ List.mem_map_of_mem refKey hr)
      · exact hsn r (List.mem_cons_of_mem a hr) h
    show dedupRefsAux seen (a :: (t ++ l₂)) = _
    simp only [dedupRefsAux, if_neg ha]
    rw [ih (refKey a :: seen) l₂ hnd.2 hsub]
    simp [List.append_assoc]

lemma dedupRefsAux_exists_key (l : List Ref) :
    ∀ (seen : List (String × PyPath × PyPath × Nat × Nat)) (r : Ref),
    r ∈ l → refKey r ∉ seen →
    ∃ r' ∈ dedupRefsAux seen l, refKey r' = refKey r := by
  induction l with
  | nil => intro seen r hr _; simp at hr
  | cons a t ih =>
    intro seen r hr hs
    rcases List.mem_cons.1 hr with heq | hmem
    · subst heq
      simp only [dedupRefsAux, if_neg hs]
      exact ⟨r, List.mem_cons_self _ _, rfl⟩
    · simp only [dedupRefsAux]
      by_cases hka : refKey a ∈ seen
      · rw [if_pos hka]
        exact ih seen r hmem hs
      · rw [if_neg hka]
        by_cases hkr : refKey r = refKey a
        · exact ⟨a, List.mem_cons_self _ _, hkr.symm⟩
        · have hs' : refKey r ∉ refKey a :: seen := by
            simp only [List.mem_cons]
            rintro (h | h)
            · exact hkr h
            · exact hs h
          obtain ⟨r', hr', hk⟩ := ih (refKey a :: seen) r hmem hs'
          exact ⟨r', List.mem_cons_of_mem a hr', hk⟩

lemma insertModuleDefs_eq (files : List FileInput) : ∀ (ds : List Def),
    insertModuleDefs files ds = (files.map mkModuleDefOf).reverse ++ ds := by
  induction files with
  | nil => intro ds; simp [insertModuleDefs]
  | cons f t ih =>
    intro ds
    simp only [insertModuleDefs, List.foldl_cons] at *
    rw [ih (mkModuleDefOf f :: ds)]
    simp

/-! ### Extraction invariants -/

lemma runNames_def_inv (cwd : List String) (fp : PyPath) (tbl : List Nat) (P : Def → Prop)
    (names : List JName) :
    ∀ (acc out : List Def × List Ref × List String),
    (∀ n ∈ names, ∀ d, jedi_def_to_def cwd n tbl = .ok d → P d) →
    (∀ d ∈ acc.1, P d) →
    runNames cwd fp tbl names acc = .ok out →
    ∀ d ∈ out.1, P d := by
  induction names with
  | nil =>
    intro acc out _ hacc h
    simp only [runNames, Except.ok.injEq] at h
    exact h ▸ hacc
  | cons n rest ih =>
    intro acc out hstep hacc h
    simp only [runNames] at h
    split at h
    · cases hj : jedi_def_to_def cwd n tbl <;> rw [hj] at h <;> dsimp only at h
      · exact absurd h (by simp)
      · rename_i d0
        refine ih _ out (fun m hm => hstep m (List.mem_cons_of_mem n hm)) ?_ h
        intro d hd
        rcases List.mem_append.1 hd with hd | hd
        · exact hacc d hd
        · have : d = d0 := by simpa using hd
          exact this ▸ hstep n (List.mem_cons_self n rest) d0 hj
    · cases href : refOf cwd fp tbl n <;> rw [href] at h <;> dsimp only at h
      · rename_i e
        exact ih (acc.1, acc.2.1, acc.2.2 ++ [refErrMsg n fp e]) out
          (fun m hm => hstep m (List.mem_cons_of_mem n hm)) hacc h
      · rename_i r0
        exact ih (acc.1, acc.2.1 ++ [r0], acc.2.2) out
          (fun m hm => hstep m (List.mem_cons_of_mem n hm)) hacc h

lemma runNames_ref_inv (cwd : List String) (fp : PyPath) (tbl : List Nat) (Q : Ref → Prop)
    (names : List JName) :
    ∀ (acc out : List Def × List Ref × List String),
    (∀ n ∈ names, ∀ r, refOf cwd fp tbl n = .ok r → Q r) →
    (∀ r ∈ acc.2.1, Q r) →
    runNames cwd fp tbl names acc = .ok out →
    ∀ r ∈ out.2.1, Q r := by
  induction names with
  | nil =>
    intro acc out _ hacc h
    simp only [runNames, Except.ok.injEq] at h
    exact h ▸ hacc
  | cons n rest ih =>
    intro acc out hstep hacc h
    simp only [runNames] at h
    split at h
    · cases hj : jedi_def_to_def cwd n tbl <;> rw [hj] at h <;> dsimp only at h
      · exact absurd h (by simp)
      · rename_i d0
        exact ih (acc.1 ++ [d0], acc.2.1, acc.2.2) out
          (fun m hm => hstep m (List.mem_cons_of_mem n hm)) hacc h
    · cases href : refOf cwd fp tbl n <;> rw [href] at h <;> dsimp only at h
      · rename_i e
        exact ih (acc.1, acc.2.1, acc.2.2 ++ [refErrMsg n fp e]) out
          (fun m hm => hstep m (List.mem_cons_of_mem n hm)) hacc h
      · rename_i r0
        refine ih _ out (fun m hm => hstep m (List.mem_cons_of_mem n hm)) ?_ h
        intro r hr
        rcases List.mem_append.1 hr with hr | hr
        · exact hacc r hr
        · have : r = r0 := by simpa using hr
          exact this ▸ hstep n (List.mem_cons_self n rest) r0 href

lemma extractFiles_def_inv (cwd : List String) (P : Def → Prop) (files : List FileInput) :
    ∀ (acc out : List Def × List Ref × List String),
    (∀ fi ∈ files, ∀ n ∈ fi.names, ∀ d,
      jedi_def_to_def cwd n (lineColToOff fi.source) = .ok d → P d) →
    (∀ d ∈ acc.1, P d) →
    extractFiles cwd files acc = .ok out →
    ∀ d ∈ out.1, P d := by
  induction files with
  | nil =>
    intro acc out _ hacc h
    simp only [extractFiles, Except.ok.injEq] at h
    exact h ▸ hacc
  | cons fi rest ih =>
    intro acc out hstep hacc h
    simp only [extractFiles] at h
    cases hg : get_defs_refs cwd fi <;> rw [hg] at h <;> dsimp only at h
    · exact absurd h (by simp)
    · rename_i trip
      obtain ⟨d1, r1, l1⟩ := trip
      dsimp only at h
      refine ih _ out (fun m hm => hstep m (List.mem_cons_of_mem fi hm)) ?_ h
      intro d hd
      rcases List.mem_append.1 hd with hd | hd
      · exact hacc d hd
      · exact runNames_def_inv cwd fi.file (lineColToOff fi.source) P fi.names _ _
          (fun n hn => hstep fi (List.mem_cons_self fi rest) n hn) (by simp) hg d hd

lemma extractFiles_ref_inv (cwd : List String) (Q : Ref → Prop) (files : List FileInput) :
    ∀ (acc out : List Def × List Ref × List String),
    (∀ fi ∈ files, ∀ n ∈ fi.names, ∀ r,
      refOf cwd fi.file (lineColToOff fi.source) n = .ok r → Q r) →
    (∀ r ∈ acc.2.1, Q r) →
    extractFiles cwd files acc = .ok out →
    ∀ r ∈ out.2.1, Q r := by
  induction files with
  | nil =>
    intro acc out _ hacc h
    simp only [extractFiles, Except.ok.injEq] at h
    exact h ▸ hacc
  | cons fi rest ih =>
    intro acc out hstep hacc h
    simp only [extractFiles] at h
    cases hg : get_defs_refs cwd fi <;> rw [hg] at h <;> dsimp only at h
    · exact absurd h (by simp)
    · rename_i trip
      obtain ⟨d1, r1, l1⟩ := trip
      dsimp only at h
      refine ih _ out (fun m hm => hstep m (List.mem_cons_of_mem fi hm)) ?_ h
      intro r hr
      rcases List.mem_append.1 hr with hr | hr
      · exact hacc r hr
      · exact runNames_ref_inv cwd fi.file (lineColToOff fi.source) Q fi.names _ _
          (fun n hn => hstep fi (List.mem_cons_self fi rest) n hn) (by simp) hg r hr

/-- All Extractor-produced references of a run are plain references with a
working-directory-relative target file: `Def = false` and a non-absolute
`DefFile`. -/
lemma extractAll_refs_wf (cwd : List String) (files : List FileInput)
    (eds : List Def) (ers : List Ref) (logs : List String)
    (he : extractAll cwd files = .ok (eds, ers, logs)) :
    ∀ r ∈ ers, r.Def = false ∧ r.DefFile.isAbs = false := by
  refine extractFiles_ref_inv cwd _ files _ (eds, ers, logs) ?_ (by simp) he
  intro fi _ n _ r hr
  obtain ⟨h1, h2, -, -⟩ := refOf_fields _ _ _ _ _ hr
  exact ⟨h1, h2 ▸ relPath_isAbs cwd n.module_path⟩

/-! ### Decomposition of one `graph` run -/

lemma graph_eq (cwd : List String) (files : List FileInput)
    (ds : List Def) (rs : List Ref) (logs : List String)
    (hg : graph cwd files = .ok (ds, rs, logs)) :
    ∃ eds ers, extractAll cwd files = .ok (eds, ers, logs) ∧
      ds = dedupDefs (insertModuleDefs files eds) ∧
      rs = dedupRefsAux [] (ds.map (selfRefOf cwd) ++ ers) := by
  unfold graph at hg
  cases he : extractAll cwd files <;> rw [he] at hg
  · exact absurd hg (by simp)
  · rename_i trip
    obtain ⟨eds, ers, logs'⟩ := trip
    simp only [Except.ok.injEq, Prod.mk.injEq] at hg
    obtain ⟨h1, h2, h3⟩ := hg
    rw [h1] at h2
    exact ⟨eds, ers, by rw [h3], h1.symm, h2.symm⟩

/-! ### Concrete fixtures used to witness the claims -/

def exCwd : List String := ["root"]

def mPy : PyPath := ⟨false, ["m.py"]⟩

def fiEmpty : FileInput := ⟨mPy, "", []⟩

def mModuleDef : Def := ⟨"m", "module", "m", mPy, 0, 0, true, "", none⟩

def mModuleSelfRef : Ref := ⟨"m", ⟨true, ["root", "m.py"]⟩, true, mPy, 0, 0, false⟩

def hSelf : JName :=
  ⟨true, false, "statement", "self", "m.C.__init__",
    [⟨"function", "m.C.__init__"⟩, ⟨"class", "m.C"⟩, ⟨"module", "m"⟩], mPy, 2, 4, ""⟩

/-! ### Claim C1 -/

/-- Claim C1, as stated, is false on the code: for an instance-attribute
binding handle (kind `statement`, enclosing scope a function, literal
name the receiver identifier `self` — the condition under which the
resolver walks the scope chain at all), `full_name_of_def` appends the
handle's own name, so the resulting path is `m.C.self`, class-anchored
but ending in the receiver name, never in the attribute name `x`. -/
theorem c1_counterexample :
    full_name_of_def [] hSelf false = .ok "m.C.self" ∧
    slashed "m.C.self" = "m/C/self" ∧
    strEndsWith "m.C.self" ("." ++ hSelf.name) = true ∧
    "m/C/self" ≠ "m/C.x" ∧ "m/C/self" ≠ "m/C/x" :=
  ⟨rfl, rfl, rfl, by decide, by decide⟩

/-- Claim C1 (amended): for a handle of kind `statement` whose enclosing
scope is a function and whose literal name is `self`, the Path Resolver
walks the enclosing scope chain upward to the first class-kind scope and
produces `<class full name>.self` (joined under the supermodule path):
class-anchored, not constructor-anchored, but with the final segment
being the receiver identifier itself, not the attribute name. -/
theorem c1_amended (cwd : List String) (d : JName) (fScope : Scope) (rest : List Scope)
    (c : Scope) (hb : d.in_builtin_module = false) (ht : d.type = "statement")
    (hp : d.parents = fScope :: rest) (hf : fScope.type = "function")
    (hn : d.name = "self") (hc : findClassScope (fScope :: rest) = some c) :
    full_name_of_def cwd d false =
      .ok (joinPath (dottedOf (supermodule_path d.module_path))
        (c.full_name ++ "." ++ "self")) := by
  unfold full_name_of_def
  rw [hb, hp, ht]
  simp only [if_true, Bool.false_eq_true, if_false]
  rw [if_pos ⟨hf, hn⟩, hc]
  rw [hn]

/-- Witness for the amended C1 at a concrete constructor-attribute
handle. -/
theorem c1_witness :
    full_name_of_def [] hSelf false =
      .ok (joinPath (dottedOf (supermodule_path hSelf.module_path))
        ((Scope.mk "class" "m.C").full_name ++ "." ++ "self")) :=
  c1_amended [] hSelf ⟨"function", "m.C.__init__"⟩ [⟨"class", "m.C"⟩, ⟨"module", "m"⟩]
    ⟨"class", "m.C"⟩ rfl rfl rfl rfl rfl rfl

/-! ### Claim C2 -/

/-- Claim C2, as stated, is false on the code: the module-level
Definition synthesized by the Graph Assembler has span `(0, 0)`, so a
run over a single empty file produces a Definition with
`DefStart = DefEnd = 0`, not `DefStart < DefEnd`. -/
theorem c2_counterexample :
    graph exCwd [fiEmpty] = .ok ([mModuleDef], [mModuleSelfRef], []) ∧
    mModuleDef ∈ [mModuleDef] ∧ ¬ mModuleDef.DefStart < mModuleDef.DefEnd :=
  ⟨rfl, List.mem_cons_self _ _, by decide⟩

/-- Claim C2 (amended): in the final graph of one run whose engine input
has only nonempty bare names, every Definition satisfies
`DefStart < DefEnd` except the synthesized module Definitions, which
have `DefStart = DefEnd = 0` (and `Kind = module`). -/
theorem c2_amended (cwd : List String) (files : List FileInput)
    (ds : List Def) (rs : List Ref) (logs : List String)
    (hne : ∀ fi ∈ files, ∀ n ∈ fi.names, n.name ≠ "")
    (hg : graph cwd files = .ok (ds, rs, logs)) :
    ∀ d ∈ ds, d.DefStart < d.DefEnd ∨
      (d.DefStart = 0 ∧ d.DefEnd = 0 ∧ d.Kind = "module") := by
  obtain ⟨eds, ers, he, hds, -⟩ := graph_eq cwd files ds rs logs hg
  have hP : ∀ d ∈ eds, d.DefEnd = d.DefStart + d.Name.length ∧ d.Name ≠ "" := by
    refine extractFiles_def_inv cwd _ files _ (eds, ers, logs) ?_ (by simp) he
    intro fi hfi n hn d hd
    obtain ⟨h1, h2, -⟩ := jedi_def_to_def_fields _ _ _ _ hd
    exact ⟨h1 ▸ h2, h1 ▸ hne fi hfi n hn⟩
  intro d hd
  rw [hds] at hd
  have hmem : d ∈ insertModuleDefs files eds := dedupDefsAux_subset _ [] d hd
  rw [insertModuleDefs_eq] at hmem
  rcases List.mem_append.1 hmem with hm | hm
  · rw [List.mem_reverse] at hm
    obtain ⟨fi, -, hfi⟩ := List.mem_map.1 hm
    right
    rw [← hfi]
    exact ⟨rfl, rfl, rfl⟩
  · left
    obtain ⟨h1, h2⟩ := hP d hm
    have := str_length_pos_of_ne_empty _ h2
    omega

/-- Witness for the amended C2 on a concrete one-file run. -/
theorem c2_witness :
    (∀ fi ∈ [fiEmpty], ∀ n ∈ fi.names, n.name ≠ "") ∧
    ∀ d ∈ [mModuleDef], d.DefStart < d.DefEnd ∨
      (d.DefStart = 0 ∧ d.DefEnd = 0 ∧ d.Kind = "module") :=
  ⟨by simp [fiEmpty], c2_amended exCwd [fiEmpty] [mModuleDef] [mModuleSelfRef] []
    (by simp [fiEmpty]) rfl⟩

/-! ### Claim C3 -/

/-- UTF-8 width of one code point, as the byte-offset reading of the
spec prescribes. -/
def charBytesUtf8 (c : Char) : Nat :=
  if c.val < 0x80 then 1 else if c.val < 0x800 then 2
  else if c.val < 0x10000 then 3 else 4

/-- Byte length of a string under UTF-8. -/
def strByteLen (s : String) : Nat :=
  (s.data.map charBytesUtf8).sum

/-- Cumulative BYTE prefix sums, one `+1` per line-feed terminator. -/
def cumByteAux (acc : Nat) : List String → List Nat
  | [] => [acc]
  | l :: t => acc :: cumByteAux (acc + strByteLen l + 1) t

/-- The table claim C3 describes, built from the spec's words: split on
line feeds and accumulate cumulative BYTE lengths including
terminators.  This is the spec-side definition, for comparison with the
implementation's `lineColToOff`. -/
def specByteTable (source : String) : List Nat :=
  cumByteAux 0 (splitStr '\n' source)

/-- The two-line source `"é\nx"`: one two-byte character, a line feed,
one ASCII character. -/
def srcAccent : String := String.mk [Char.ofNat 233, '\n', 'x']

/-- Claim C3 (code bug): the converter's doc comment and the claim both
promise byte offsets, but the code sums `len(line)` which counts code
points.  On `"é\nx"` the code's table is `[0, 2, 4]` while the
cumulative byte lengths are `[0, 3, 5]`, so `convert(2, 0)` returns
offset 2 where the byte offset of line 2 is 3. -/
theorem c3_byte_offset_bug :
    lineColToOff srcAccent = [0, 2, 4] ∧
    specByteTable srcAccent = [0, 3, 5] ∧
    convert (lineColToOff srcAccent) 2 0 = some 2 ∧
    (specByteTable srcAccent).getD 1 0 + 0 = 3 ∧
    (2 : Nat) ≠ 3 :=
  ⟨by decide, by decide, by decide, by decide, by decide⟩

/-! ### Claim C4 -/

def nBadDef : JName :=
  ⟨true, false, "function", "f", "f", [⟨"module", "m"⟩], mPy, 5, 0, ""⟩

def nGoodDef : JName :=
  ⟨true, false, "function", "g", "g", [⟨"module", "m"⟩], mPy, 1, 0, ""⟩

def fiBadDef : FileInput := ⟨mPy, "x", [nBadDef, nGoodDef]⟩

def nBadRef : JName :=
  ⟨false, false, "function", "f", "f", [⟨"module", "m"⟩], mPy, 5, 0, ""⟩

def fiBadRef : FileInput := ⟨mPy, "x", [nBadRef, nGoodDef]⟩

def gDef : Def := ⟨"g", "function", "g", mPy, 0, 1, true, "", none⟩

def badRefMsg : String :=
  "failed to convert ref (f) in source file m.py: TypeError: can only concatenate tuple (not int) to tuple"

/-- Claim C4 (code bug): the one-line source `"x"` has table `[0, 2]`,
so a reported line 5 is out of range and `convert` yields its error
value.  For a REFERENCE occurrence this is caught: the occurrence is
skipped, the failure is logged, and the following definition `g` is
still processed.  For a DEFINITION occurrence, however,
`jedi_def_to_def` runs outside any `try`, the `(None, msg) + len(name)`
type error propagates, and the whole file (and run) aborts — the
remaining occurrence `g` is never processed, contradicting the claim
that an out-of-range occurrence is skipped whether it is a definition
or a reference. -/
theorem c4_out_of_range_definition_aborts :
    convert (lineColToOff "x") 5 0 = none ∧
    get_defs_refs exCwd fiBadDef =
      .error "TypeError: can only concatenate tuple (not int) to tuple" ∧
    graph exCwd [fiBadDef] =
      .error "TypeError: can only concatenate tuple (not int) to tuple" ∧
    get_defs_refs exCwd fiBadRef = .ok ([gDef], [], [badRefMsg]) :=
  ⟨rfl, rfl, rfl, rfl⟩

/-! ### Claim C5 -/

/-- Canonical-path resolution for a reference fails: either the resolver
raises (for instance the no-marker absolute-path failure) or it returns
the empty path. -/
def refResolutionFailsB (cwd : List String) (n : JName) : Bool :=
  match full_name_of_def cwd n true with
  | .error _ => true
  | .ok s => s == ""

/-- Claim C5: a reference occurrence whose canonical-path resolution
fails (empty path, or no recognizable marker in an absolute module
path) contributes nothing to the definition or reference accumulators,
appends one diagnostic to the stream, and processing continues with the
remaining occurrences of the file exactly as if the occurrence had not
been there. -/
theorem c5_failed_ref_reported_and_skipped (cwd : List String) (fp : PyPath)
    (tbl : List Nat) (n : JName) (rest : List JName) (ds : List Def) (rs : List Ref)
    (logs : List String) (hdef : n.is_definition = false)
    (hfail : refResolutionFailsB cwd n = true) :
    ∃ m, runNames cwd fp tbl (n :: rest) (ds, rs, logs) =
      runNames cwd fp tbl rest (ds, rs, logs ++ [m]) := by
  have href : ∃ e, refOf cwd fp tbl n = .error e := by
    unfold refResolutionFailsB at hfail
    unfold refOf
    cases hf : full_name_of_def cwd n true <;> rw [hf] at hfail <;> dsimp only
    · exact ⟨_, rfl⟩
    · rename_i s
      have hs : s = "" := by simpa using hfail
      rw [if_pos hs]
      exact ⟨_, rfl⟩
  obtain ⟨e, he⟩ := href
  refine ⟨refErrMsg n fp e, ?_⟩
  simp only [runNames, hdef, Bool.false_eq_true, if_false, he]

def nEmptyRef : JName := ⟨false, false, "name", "z", "", [], mPy, 1, 0, ""⟩

/-- Witness for C5 at a reference whose resolved path is empty. -/
theorem c5_witness :
    nEmptyRef.is_definition = false ∧
    refResolutionFailsB exCwd nEmptyRef = true ∧
    ∃ m, runNames exCwd mPy (lineColToOff "x") [nEmptyRef] ([], [], []) =
      runNames exCwd mPy (lineColToOff "x") [] ([], [], [] ++ [m]) :=
  ⟨rfl, rfl, c5_failed_ref_reported_and_skipped exCwd mPy (lineColToOff "x")
    nEmptyRef [] [] [] [] rfl rfl⟩

/-! ### Shared structure of the reference list of one run -/

lemma graph_nodup_paths (cwd : List String) (files : List FileInput)
    (ds : List Def) (rs : List Ref) (logs : List String)
    (hg : graph cwd files = .ok (ds, rs, logs)) :
    (ds.map (fun d => d.Path)).Nodup := by
  obtain ⟨eds, ers, -, hds, -⟩ := graph_eq cwd files ds rs logs hg
  rw [hds]
  exact dedupDefsAux_nodup _ []

lemma selfRefs_keys_nodup (cwd : List String) (ds : List Def)
    (hnd : (ds.map (fun d => d.Path)).Nodup) :
    ((ds.map (selfRefOf cwd)).map refKey).Nodup := by
  rw [List.map_map]
  have h1 : ((ds.map (fun d => refKey (selfRefOf cwd d))).map Prod.fst).Nodup := by
    rw [List.map_map]
    exact hnd
  exact List.Nodup.of_map Prod.fst h1

lemma graph_refs_split (cwd : List String) (files : List FileInput)
    (ds : List Def) (rs : List Ref) (logs : List String)
    (hg : graph cwd files = .ok (ds, rs, logs)) :
    ∃ eds ers, extractAll cwd files = .ok (eds, ers, logs) ∧
      rs = dedupRefsAux [] (ds.map (selfRefOf cwd) ++ ers) ∧
      rs = ds.map (selfRefOf cwd) ++
        dedupRefsAux ((ds.map (selfRefOf cwd)).reverse.map refKey ++ []) ers ∧
      (∀ r ∈ ers, r.Def = false ∧ r.DefFile.isAbs = false) := by
  obtain ⟨eds, ers, he, hds, hrs⟩ := graph_eq cwd files ds rs logs hg
  have hnd := graph_nodup_paths cwd files ds rs logs hg
  refine ⟨eds, ers, he, hrs, ?_, extractAll_refs_wf cwd files eds ers logs he⟩
  rw [hrs]
  exact dedupRefsAux_append_nodup _ [] ers (selfRefs_keys_nodup cwd ds hnd) (by simp)

/-! ### Claim C6 -/

/-- Claim C6: in the final graph of one run, every kept Definition has
its synthesized self-Reference (with `Def = true` and span equal to the
Definition span) in the output, and every Reference with `Def = true`
corresponds to exactly one Definition with matching Path, File and
span. -/
theorem c6_self_reference_bijection (cwd : List String) (files : List FileInput)
    (ds : List Def) (rs : List Ref) (logs : List String)
    (hg : graph cwd files = .ok (ds, rs, logs)) :
    (∀ d ∈ ds, selfRefOf cwd d ∈ rs ∧ (selfRefOf cwd d).Def = true ∧
      (selfRefOf cwd d).Start = d.DefStart ∧ (selfRefOf cwd d).End = d.DefEnd) ∧
    (∀ r ∈ rs, r.Def = true →
      ∃! d, d ∈ ds ∧ d.Path = r.DefPath ∧ d.File = r.File ∧
        d.DefStart = r.Start ∧ d.DefEnd = r.End) := by
  have hnd := graph_nodup_paths cwd files ds rs logs hg
  obtain ⟨eds, ers, he, -, happ, hwf⟩ := graph_refs_split cwd files ds rs logs hg
  constructor
  · intro d hd
    refine ⟨?_, rfl, rfl, rfl⟩
    rw [happ]
    exact List.mem_append_left _ (List.mem_map_of_mem _ hd)
  · intro r hr hrdef
    rw [happ] at hr
    rcases List.mem_append.1 hr with hmem | hmem
    · obtain ⟨d0, hd0, hself⟩ := List.mem_map.1 hmem
      subst hself
      refine ⟨d0, ⟨hd0, rfl, rfl, rfl, rfl⟩, ?_⟩
      rintro y ⟨hy, hyp, -, -, -⟩
      exact List.inj_on_of_nodup_map hnd hy hd0 hyp
    · have hfalse : r.Def = false :=
        (hwf r (dedupRefsAux_subset ers _ r hmem)).1
      rw [hrdef] at hfalse
      exact absurd hfalse (by simp)

/-- Witness for C6 on a concrete one-file run. -/
theorem c6_witness :
    graph exCwd [fiEmpty] = .ok ([mModuleDef], [mModuleSelfRef], []) ∧
    ((∀ d ∈ [mModuleDef], selfRefOf exCwd d ∈ [mModuleSelfRef] ∧
        (selfRefOf exCwd d).Def = true ∧
        (selfRefOf exCwd d).Start = d.DefStart ∧ (selfRefOf exCwd d).End = d.DefEnd) ∧
      (∀ r ∈ [mModuleSelfRef], r.Def = true →
        ∃! d, d ∈ [mModuleDef] ∧ d.Path = r.DefPath ∧ d.File = r.File ∧
          d.DefStart = r.Start ∧ d.DefEnd = r.End)) :=
  ⟨rfl, c6_self_reference_bijection exCwd [fiEmpty] [mModuleDef] [mModuleSelfRef] [] rfl⟩

/-! ### Claim C7 -/

/-- Claim C7: after deduplication, no two Definitions of one run share a
Path, and each kept Definition is the first occurrence of its Path in
the combined pre-deduplication list. -/
theorem c7_first_occurrence_dedup (cwd : List String) (files : List FileInput)
    (ds : List Def) (rs : List Ref) (logs : List String)
    (hg : graph cwd files = .ok (ds, rs, logs)) :
    ∃ l, combinedDefs cwd files = .ok l ∧
      (ds.map (fun d => d.Path)).Nodup ∧
      ∀ d ∈ ds, l.find? (fun x => x.Path == d.Path) = some d := by
  obtain ⟨eds, ers, he, hds, -⟩ := graph_eq cwd files ds rs logs hg
  have hnd := graph_nodup_paths cwd files ds rs logs hg
  refine ⟨insertModuleDefs files eds, by simp [combinedDefs, he], hnd, ?_⟩
  intro d hd
  have h1 := dedupDefsAux_find (insertModuleDefs files eds) [] d.Path (by simp)
  have h2 := find?_self_of_nodup_paths ds hnd d hd
  rw [hds] at h2
  rw [← h1]
  exact h2

def fPkgPy : FileInput := ⟨⟨false, ["pkg.py"]⟩, "", []⟩

def fPkgInit : FileInput := ⟨⟨false, ["pkg", "__init__.py"]⟩, "", []⟩

def pkgInitModuleDef : Def :=
  ⟨"pkg", "module", "pkg", ⟨false, ["pkg", "__init__.py"]⟩, 0, 0, true, "", none⟩

def pkgPyModuleDef : Def :=
  ⟨"pkg", "module", "pkg", ⟨false, ["pkg.py"]⟩, 0, 0, true, "", none⟩

def pkgInitSelfRef : Ref :=
  ⟨"pkg", ⟨true, ["root", "pkg", "__init__.py"]⟩, true,
    ⟨false, ["pkg", "__init__.py"]⟩, 0, 0, false⟩

/-- Witness for C7 on a run with two files whose module names collide. -/
theorem c7_witness :
    graph exCwd [fPkgPy, fPkgInit] = .ok ([pkgInitModuleDef], [pkgInitSelfRef], []) ∧
    ∃ l, combinedDefs exCwd [fPkgPy, fPkgInit] = .ok l ∧
      (([pkgInitModuleDef]).map (fun d => d.Path)).Nodup ∧
      ∀ d ∈ [pkgInitModuleDef], l.find? (fun x => x.Path == d.Path) = some d :=
  ⟨rfl, c7_first_occurrence_dedup exCwd [fPkgPy, fPkgInit]
    [pkgInitModuleDef] [pkgInitSelfRef] [] rfl⟩

/-! ### Claim C8 -/

/-- The iteration order claim C8 asserts, built from the spec's words:
synthesized module definitions first, per file in INPUT-file order, then
the extracted definitions.  This is the spec-side definition, for
comparison with the implementation's `insertModuleDefs` order. -/
def specCombinedDefs (files : List FileInput) (eds : List Def) : List Def :=
  files.map mkModuleDefOf ++ eds

/-- Claim C8, as stated, is false on the code: the `defs.insert(0, ...)`
loop prepends one module definition per file, so the module definitions
end up in REVERSE input-file order.  With two input files whose module
paths collide (`pkg.py` and `pkg/__init__.py` both yield path `pkg`),
the run keeps the module definition of the LAST file, while first-wins
deduplication over the claimed order would keep the FIRST file's. -/
theorem c8_counterexample :
    graph exCwd [fPkgPy, fPkgInit] = .ok ([pkgInitModuleDef], [pkgInitSelfRef], []) ∧
    dedupDefs (specCombinedDefs [fPkgPy, fPkgInit] []) = [pkgPyModuleDef] ∧
    pkgInitModuleDef.File ≠ pkgPyModuleDef.File ∧
    ([pkgInitModuleDef] : List Def) ≠ [pkgPyModuleDef] :=
  ⟨rfl, rfl, by decide, by decide⟩

/-- Claim C8 (amended): the deduplication iterates over the synthesized
module definitions in REVERSE input-file order (each is prepended to the
evolving list), followed by the extracted definitions per file in input
order and engine-reported order within a file, and keeps the first
occurrence of each Path in that order. -/
theorem c8_amended (cwd : List String) (files : List FileInput)
    (ds : List Def) (rs : List Ref) (logs : List String)
    (eds : List Def) (ers : List Ref) (logs2 : List String)
    (he : extractAll cwd files = .ok (eds, ers, logs2))
    (hg : graph cwd files = .ok (ds, rs, logs)) :
    ds = dedupDefs ((files.map mkModuleDefOf).reverse ++ eds) ∧
    ∀ d ∈ ds, ((files.map mkModuleDefOf).reverse ++ eds).find?
      (fun x => x.Path == d.Path) = some d := by
  obtain ⟨eds', ers', he', hds, -⟩ := graph_eq cwd files ds rs logs hg
  have hnd := graph_nodup_paths cwd files ds rs logs hg
  have hinj := he'.symm.trans he
  simp only [Except.ok.injEq, Prod.mk.injEq] at hinj
  obtain ⟨h1, -, -⟩ := hinj
  subst h1
  rw [insertModuleDefs_eq] at hds
  refine ⟨hds, ?_⟩
  intro d hd
  have hfind := dedupDefsAux_find ((files.map mkModuleDefOf).reverse ++ eds') []
    d.Path (by simp)
  have hself := find?_self_of_nodup_paths ds hnd d hd
  rw [hds] at hself
  rw [← hfind]
  exact hself

/-- Witness for the amended C8 on the colliding-module-path run. -/
theorem c8_witness :
    extractAll exCwd [fPkgPy, fPkgInit] = .ok ([], [], []) ∧
    graph exCwd [fPkgPy, fPkgInit] = .ok ([pkgInitModuleDef], [pkgInitSelfRef], []) ∧
    [pkgInitModuleDef] =
      dedupDefs (([fPkgPy, fPkgInit].map mkModuleDefOf).reverse ++ []) :=
  ⟨rfl, rfl, (c8_amended exCwd [fPkgPy, fPkgInit] [pkgInitModuleDef] [pkgInitSelfRef]
    [] [] [] [] rfl rfl).1⟩

/-! ### Claim C9 -/

/-- Claim C9: one Extractor+Assembler run is a pure function of the
working directory and the analysis-engine input: two runs over the same
unchanged input produce byte-identical serialized output (every record
is emitted with its keys in sorted order, and all ordering in the
pipeline is determined by the input lists alone — the key sets are used
only for membership, never for iteration). -/
theorem c9_two_run_determinism (cwd₁ : List String) (files₁ : List FileInput)
    (cwd₂ : List String) (files₂ : List FileInput)
    (h1 : cwd₁ = cwd₂) (h2 : files₁ = files₂) :
    serializeGraph cwd₁ files₁ = serializeGraph cwd₂ files₂ := by
  subst h1
  subst h2
  rfl

/-- Witness for C9: two runs over the same concrete input. -/
theorem c9_witness :
    serializeGraph exCwd [fiEmpty] = serializeGraph exCwd [fiEmpty] :=
  c9_two_run_determinism exCwd [fiEmpty] exCwd [fiEmpty] rfl rfl

/-! ### Claim C10 -/

/-- Claim C10: every synthesized self-Reference carries the absolute
path of its Definition's file as `DefFile` and `ToBuiltin = false`,
while every Extractor-produced Reference carries a relative `DefFile`;
hence an extracted Reference never shares its deduplication key with
any synthesized self-Reference, and for every extracted Reference some
extracted (`Def = false`) record with its key appears in the output
alongside the self-References. -/
theorem c10_self_and_extracted_not_merged (cwd : List String) (files : List FileInput)
    (ds : List Def) (rs : List Ref) (logs : List String)
    (eds : List Def) (ers : List Ref) (logs2 : List String)
    (he : extractAll cwd files = .ok (eds, ers, logs2))
    (hg : graph cwd files = .ok (ds, rs, logs)) :
    (∀ d ∈ ds, (selfRefOf cwd d).DefFile = absPath cwd d.File ∧
      (selfRefOf cwd d).DefFile.isAbs = true ∧ (selfRefOf cwd d).ToBuiltin = false ∧
      selfRefOf cwd d ∈ rs) ∧
    (∀ r ∈ ers, r.DefFile.isAbs = false ∧ r.Def = false ∧
      (∀ d ∈ ds, refKey r ≠ refKey (selfRefOf cwd d)) ∧
      ∃ r' ∈ rs, refKey r' = refKey r ∧ r'.Def = false) := by
  obtain ⟨eds', ers', he', hrs, happ, hwf⟩ := graph_refs_split cwd files ds rs logs hg
  have hinj := he'.symm.trans he
  simp only [Except.ok.injEq, Prod.mk.injEq] at hinj
  obtain ⟨-, hers, -⟩ := hinj
  rw [hers] at hrs happ hwf
  have hkeyne : ∀ r ∈ ers, ∀ d ∈ ds, refKey r ≠ refKey (selfRefOf cwd d) := by
    intro r hr d hd heq
    have hrel : r.DefFile.isAbs = false := (hwf r hr).2
    have habs : (selfRefOf cwd d).DefFile.isAbs = true := absPath_isAbs cwd d.File
    have : r.DefFile = (selfRefOf cwd d).DefFile := congrArg (fun k => k.2.1) heq
    rw [this, habs] at hrel
    exact absurd hrel (by simp)
  constructor
  · intro d hd
    refine ⟨rfl, absPath_isAbs cwd d.File, rfl, ?_⟩
    rw [happ]
    exact List.mem_append_left _ (List.mem_map_of_mem _ hd)
  · intro r hr
    refine ⟨(hwf r hr).2, (hwf r hr).1, hkeyne r hr, ?_⟩
    have hmem : r ∈ ds.map (selfRefOf cwd) ++ ers := List.mem_append_right _ hr
    obtain ⟨r', hr', hk⟩ :=
      dedupRefsAux_exists_key (ds.map (selfRefOf cwd) ++ ers) [] r hmem (by simp)
    rw [← hrs] at hr'
    refine ⟨r', hr', hk, ?_⟩
    have hr'mem : r' ∈ ds.map (selfRefOf cwd) ++ ers := by
      rw [hrs] at hr'
      exact dedupRefsAux_subset _ [] r' hr'
    rcases List.mem_append.1 hr'mem with hm | hm
    · obtain ⟨d0, hd0, hself⟩ := List.mem_map.1 hm
      exact absurd (hself ▸ hk) (fun hkk => hkeyne r hr d0 hd0 hkk.symm)
    · exact (hwf r' hm).1

def nRefGood : JName := ⟨false, false, "name", "y", "m.y", [⟨"module", "m"⟩], mPy, 1, 0, ""⟩

def fiWithRef : FileInput := ⟨mPy, "x", [nRefGood]⟩

def yRef : Ref := ⟨"m/y", mPy, false, mPy, 0, 1, false⟩

/-- Witness for C10 on a run with one extracted reference. -/
theorem c10_witness :
    extractAll exCwd [fiWithRef] = .ok ([], [yRef], []) ∧
    graph exCwd [fiWithRef] = .ok ([mModuleDef], [mModuleSelfRef, yRef], []) ∧
    (∀ r ∈ [yRef], r.DefFile.isAbs = false ∧ r.Def = false ∧
      (∀ d ∈ [mModuleDef], refKey r ≠ refKey (selfRefOf exCwd d)) ∧
      ∃ r' ∈ [mModuleSelfRef, yRef], refKey r' = refKey r ∧ r'.Def = false) :=
  ⟨rfl, rfl, (c10_self_and_extracted_not_merged exCwd [fiWithRef] [mModuleDef]
    [mModuleSelfRef, yRef] [] [] [yRef] [] rfl rfl).2⟩

end Srclib
